import Mathlib

/-!
Verification of the zoog repository's comment-header and gain machinery.

Strings that the Rust code treats as byte buffers (`Vec<u8>`, the UTF-8
bytes of a `String`) are modelled as `List Nat` with every element below
256; machine integers are modelled as `Nat`/`Int` with explicit range
conditions.  The `f64`-valued `Decibels` type is modelled as `Rat`: every
floating-point operation performed on it by the functions verified here
(division and multiplication by 256, subtraction of representable
constants, `round`) is exact on the values involved, so the rational
model computes the same results bit-for-bit.
-/

deriving instance DecidableEq for Except

namespace Zoog

/-- Error enumeration covering the `zoog::Error` variants reachable from the
functions modelled in this file.  `panicMissingVolume` and
`panicMissingHeaderPacket` model the two `expect` panics in
`VolumeHeaderRewrite::rewrite` and `HeaderRewriter::submit`. -/
inductive ZError
  | invalidOpusCommentFieldName
  | missingCommentSeparator
  | malformedCommentHeader
  | invalidUtf8
  | unrepresentableValueInCommentHeader
  | gainOutOfBounds
  | unsupportedCodec
  | unknownCodec
  | unsupportedCodecVersion
  | malformedIdentificationHeader
  | panicMissingVolume
  | panicMissingHeaderPacket
deriving DecidableEq, Repr

/-! ## FixedPointGain (src/fixed_point_gain.rs) and Decibels (src/decibels.rs) -/

/-- `Decibels` wraps an `f64`; modelled as `Rat` (see module comment). -/
abbrev Decibels := Rat

/-- The bounds of Rust's `i16`. -/
def i16min : Int := -32768

def i16max : Int := 32767

/-- `FixedPointGain`: the Q7.8 fixed-point Decibel representation used in
Opus headers, wrapping an `i16` (modelled as an `Int` kept in range by
every constructor in the source). -/
structure FixedPointGain where
  value : Int
deriving DecidableEq, Repr

/-- `FixedPointGain::as_fixed_point`. -/
def FixedPointGain.asFixedPoint (g : FixedPointGain) : Int := g.value

/-- `FixedPointGain::as_decibels`: `value as f64 / 256.0` (exact in `f64`
for every `i16`, hence the rational division models it exactly). -/
def FixedPointGain.asDecibels (g : FixedPointGain) : Decibels := (g.value : Rat) / 256

/-- `FixedPointGain::from_fixed_point`. -/
def FixedPointGain.fromFixedPoint (value : Int) : FixedPointGain := ⟨value⟩

/-- `FixedPointGain::is_zero`. -/
def FixedPointGain.isZero (g : FixedPointGain) : Bool := g.value = 0

/-- `i16::checked_add` lifted to `FixedPointGain::checked_add`: the sum of
the underlying values when it fits in `i16`, `None` on overflow. -/
def FixedPointGain.checkedAdd (a b : FixedPointGain) : Option FixedPointGain :=
  if i16min ≤ a.value + b.value ∧ a.value + b.value ≤ i16max then
    some ⟨a.value + b.value⟩
  else
    none

/-- `i16::checked_neg` lifted to `FixedPointGain::checked_neg`: negation
when it fits in `i16`, `None` on overflow. -/
def FixedPointGain.checkedNeg (a : FixedPointGain) : Option FixedPointGain :=
  if i16min ≤ -a.value ∧ -a.value ≤ i16max then
    some ⟨-a.value⟩
  else
    none

/-- `f64::round`: round half away from zero. -/
def roundHalfAway (q : Rat) : Int :=
  if 0 ≤ q then ⌊q + 1 / 2⌋ else ⌈q - 1 / 2⌉

/-- `TryFrom<Decibels> for FixedPointGain`: multiply by 256, `round`, cast
to `i16` (a Rust float-to-int cast saturates at the type's bounds), and
fail with `GainOutOfBounds` unless the cast value differs from the rounded
float by less than `EPSILON`.  Both quantities are integers, so the
`EPSILON` comparison in the source is an equality test. -/
def FixedPointGain.tryFromDecibels (d : Decibels) : Except ZError FixedPointGain :=
  if max i16min (min i16max (roundHalfAway (d * 256))) = roundHalfAway (d * 256) then
    .ok ⟨max i16min (min i16max (roundHalfAway (d * 256)))⟩
  else
    .error .gainOutOfBounds

/-- Rounding a rational that is an integer is the identity. -/
theorem roundHalfAway_intCast (n : Int) : roundHalfAway (n : Rat) = n := by
  unfold roundHalfAway
  rcases le_or_lt 0 (n : Rat) with h | h
  · rw [if_pos h]
    rw [Int.floor_eq_iff]
    constructor
    · linarith
    · linarith
  · rw [if_neg (not_le.mpr h)]
    rw [Int.ceil_eq_iff]
    constructor
    · linarith
    · linarith

/-- **C6.** For every `i16` value `v`, building a `FixedPointGain` from `v`,
converting it to `Decibels` (`v / 256.0`) and converting back via
`TryFrom<Decibels>` succeeds and returns exactly `v`. -/
theorem fixedPointGain_decibels_roundtrip (v : Int)
    (hlo : i16min ≤ v) (hhi : v ≤ i16max) :
    FixedPointGain.tryFromDecibels (FixedPointGain.fromFixedPoint v).asDecibels =
      .ok (FixedPointGain.fromFixedPoint v) := by
  unfold FixedPointGain.tryFromDecibels FixedPointGain.asDecibels FixedPointGain.fromFixedPoint
  have h256 : ((v : Rat) / 256) * 256 = (v : Rat) := by
    field_simp
  rw [h256, roundHalfAway_intCast]
  simp only [min_eq_right hhi, max_eq_right hlo, if_pos rfl, if_true]

/-- Witness for `fixedPointGain_decibels_roundtrip` at `v = -32768`. -/
theorem fixedPointGain_decibels_roundtrip_witness :
    FixedPointGain.tryFromDecibels (FixedPointGain.fromFixedPoint (-32768)).asDecibels =
      .ok (FixedPointGain.fromFixedPoint (-32768)) :=
  fixedPointGain_decibels_roundtrip (-32768) (by decide) (by decide)

/-- **C7.** For `i16`-ranged gains `a` and `b`, `checked_add` returns `None`
exactly when the sum of the underlying values leaves the `i16` range and
otherwise returns the gain wrapping that sum; `checked_neg` returns `None`
exactly on `i16::MIN` and otherwise returns the negation. -/
theorem fixedPointGain_checked_arith (a b : FixedPointGain)
    (ha : i16min ≤ a.value ∧ a.value ≤ i16max)
    (_hb : i16min ≤ b.value ∧ b.value ≤ i16max) :
    (a.checkedAdd b = none ↔ ¬(i16min ≤ a.value + b.value ∧ a.value + b.value ≤ i16max)) ∧
    (¬(a.checkedAdd b = none) → a.checkedAdd b = some ⟨a.value + b.value⟩) ∧
    (a.checkedNeg = none ↔ a.value = i16min) ∧
    (¬(a.checkedNeg = none) → a.checkedNeg = some ⟨-a.value⟩) := by
  unfold FixedPointGain.checkedAdd FixedPointGain.checkedNeg
  by_cases hadd : i16min ≤ a.value + b.value ∧ a.value + b.value ≤ i16max
  · rw [if_pos hadd]
    by_cases hneg : i16min ≤ -a.value ∧ -a.value ≤ i16max
    · rw [if_pos hneg]
      refine ⟨by simp [hadd], fun _ => rfl, ?_, fun _ => rfl⟩
      simp only [i16min, i16max] at *
      constructor
      · intro h; exact absurd h (by simp)
      · intro h; omega
    · rw [if_neg hneg]
      refine ⟨by simp [hadd], fun _ => rfl, ?_, by simp⟩
      simp only [i16min, i16max] at *
      constructor
      · intro _; omega
      · intro _; simp
  · rw [if_neg hadd]
    by_cases hneg : i16min ≤ -a.value ∧ -a.value ≤ i16max
    · rw [if_pos hneg]
      refine ⟨by simp [hadd], by simp, ?_, fun _ => rfl⟩
      simp only [i16min, i16max] at *
      constructor
      · intro h; exact absurd h (by simp)
      · intro h; omega
    · rw [if_neg hneg]
      refine ⟨by simp [hadd], by simp, ?_, by simp⟩
      simp only [i16min, i16max] at *
      constructor
      · intro _; omega
      · intro _; simp

/-- Witness for `fixedPointGain_checked_arith` at `a = 32767`, `b = 1`:
the addition overflows and the negation succeeds. -/
theorem fixedPointGain_checked_arith_witness :
    (FixedPointGain.checkedAdd ⟨32767⟩ ⟨1⟩ = none ↔
      ¬(i16min ≤ (32767 : Int) + 1 ∧ (32767 : Int) + 1 ≤ i16max)) ∧
    (¬(FixedPointGain.checkedAdd ⟨32767⟩ ⟨1⟩ = none) →
      FixedPointGain.checkedAdd ⟨32767⟩ ⟨1⟩ = some ⟨(32767 : Int) + 1⟩) ∧
    (FixedPointGain.checkedNeg ⟨32767⟩ = none ↔ (32767 : Int) = i16min) ∧
    (¬(FixedPointGain.checkedNeg ⟨32767⟩ = none) →
      FixedPointGain.checkedNeg ⟨32767⟩ = some ⟨-(32767 : Int)⟩) :=
  fixedPointGain_checked_arith ⟨32767⟩ ⟨1⟩ ⟨by decide, by decide⟩ ⟨by decide, by decide⟩

/-! ## Escaping (src/escaping.rs) -/

/-- For the four characters escaped by `vorbiscomment`-style escaping,
the character written after the backslash; `none` for all others.
Mirrors the match in `EscapingIterator::next`. -/
def escapeCode (c : Char) : Option Char :=
  if c = '\x00' then some '0'
  else if c = '\n' then some 'n'
  else if c = '\r' then some 'r'
  else if c = '\\' then some '\\'
  else none

/-- The character stream produced by `EscapingIterator`: each escaped
character becomes a backslash followed by its code. -/
def escapeChars : List Char → List Char
  | [] => []
  | c :: rest =>
    match escapeCode c with
    | some e => '\\' :: e :: escapeChars rest
    | none => c :: escapeChars rest

/-- `escape_str`: returns the input unchanged when it contains none of the
escaped characters, otherwise the escaped stream. -/
def escapeStr (s : List Char) : List Char :=
  if s.any (fun c => (escapeCode c).isSome) then escapeChars s else s

/-- `EscapeDecodeError` from src/escaping.rs. -/
inductive EscapeDecodeError
  | trailingBackSlash
  | invalidEscape (c : Char)
deriving DecidableEq, Repr

/-- The decoding of the character following a backslash; `none` makes
`unescape_str` fail with `InvalidEscape`. -/
def unescapeCode (c : Char) : Option Char :=
  if c = '0' then some '\x00'
  else if c = 'n' then some '\n'
  else if c = 'r' then some '\r'
  else if c = '\\' then some '\\'
  else none

/-- The scanning loop of `unescape_str` (the `is_escape` flag becomes the
two-character look at a backslash). -/
def unescapeChars : List Char → Except EscapeDecodeError (List Char)
  | [] => .ok []
  | c :: rest =>
    if c = '\\' then
      match rest with
      | [] => .error .trailingBackSlash
      | d :: rest2 =>
        match unescapeCode d with
        | some u => (unescapeChars rest2).map (u :: ·)
        | none => .error (.invalidEscape d)
    else
      (unescapeChars rest).map (c :: ·)

/-- `unescape_str`: returns the input unchanged when it contains no
backslash, otherwise runs the scanning loop. -/
def unescapeStr (s : List Char) : Except EscapeDecodeError (List Char) :=
  if s.contains '\\' then unescapeChars s else .ok s

/-- A string is mal-escaped when the scan meets a trailing lone backslash
or a backslash followed by a character other than `0`, `n`, `r`, `\`. -/
def hasBadEscape : List Char → Bool
  | [] => false
  | c :: rest =>
    if c = '\\' then
      match rest with
      | [] => true
      | d :: rest2 =>
        match unescapeCode d with
        | some _ => hasBadEscape rest2
        | none => true
    else
      hasBadEscape rest

theorem unescapeChars_cons_escape (d u : Char) (l : List Char)
    (h : unescapeCode d = some u) :
    unescapeChars ('\\' :: d :: l) = (unescapeChars l).map (u :: ·) := by
  simp [unescapeChars, h]

theorem unescapeChars_cons_plain (c : Char) (l : List Char) (h : ¬ c = '\\') :
    unescapeChars (c :: l) = (unescapeChars l).map (c :: ·) := by
  rcases l with _ | ⟨d, l2⟩ <;> simp [unescapeChars, h]

theorem unescapeChars_escapeChars (s : List Char) :
    unescapeChars (escapeChars s) = .ok s := by
  induction s with
  | nil => rfl
  | cons c rest ih =>
    by_cases h : (escapeCode c).isSome
    · rcases Option.isSome_iff_exists.mp h with ⟨e, he⟩
      have hdec : unescapeCode e = some c := by
        unfold escapeCode at he
        split_ifs at he with h0 hn hr hb
        · injection he with he2; subst he2; subst h0; decide
        · injection he with he2; subst he2; subst hn; decide
        · injection he with he2; subst he2; subst hr; decide
        · injection he with he2; subst he2; subst hb; decide
      simp only [escapeChars, he]
      rw [unescapeChars_cons_escape e c _ hdec, ih]
      rfl
    · have hne : escapeCode c = none := Option.not_isSome_iff_eq_none.mp h
      have hnb : ¬(c = '\\') := by
        intro heq
        rw [heq] at hne
        simp [escapeCode] at hne
      simp only [escapeChars, hne]
      rw [unescapeChars_cons_plain c _ hnb, ih]
      rfl

theorem escapeChars_safe (s : List Char) :
    ∀ c ∈ escapeChars s, c ≠ '\x00' ∧ c ≠ '\n' ∧ c ≠ '\r' := by
  induction s with
  | nil => intro c hc; cases hc
  | cons c rest ih =>
    intro d hd
    rcases he : escapeCode c with _ | e
    · simp only [escapeChars, he] at hd
      rcases List.mem_cons.mp hd with hd | hd
      · subst hd
        unfold escapeCode at he
        split_ifs at he with h0 hn hr hb
        exact ⟨h0, hn, hr⟩
      · exact ih d hd
    · simp only [escapeChars, he] at hd
      rcases List.mem_cons.mp hd with hd | hd
      · subst hd
        exact ⟨by decide, by decide, by decide⟩
      rcases List.mem_cons.mp hd with hd | hd
      · subst hd
        unfold escapeCode at he
        split_ifs at he with h0 hn hr hb
        · injection he with he2; subst he2; exact ⟨by decide, by decide, by decide⟩
        · injection he with he2; subst he2; exact ⟨by decide, by decide, by decide⟩
        · injection he with he2; subst he2; exact ⟨by decide, by decide, by decide⟩
        · injection he with he2; subst he2; exact ⟨by decide, by decide, by decide⟩
      · exact ih d hd

theorem except_map_error_iff {α β : Type} (f : α → β) (x : Except EscapeDecodeError α) :
    (∃ e, x.map f = .error e) ↔ (∃ e, x = .error e) := by
  rcases x with e | v
  · exact ⟨fun _ => ⟨e, rfl⟩, fun _ => ⟨e, rfl⟩⟩
  · constructor
    · intro ⟨e2, he2⟩; cases he2
    · intro ⟨e2, he2⟩; cases he2

theorem unescapeChars_isOk_iff (s : List Char) :
    (∃ e, unescapeChars s = .error e) ↔ hasBadEscape s = true := by
  induction s using hasBadEscape.induct with
  | case1 =>
    simp [unescapeChars, hasBadEscape]
  | case2 =>
    simp only [hasBadEscape]
    exact ⟨fun _ => rfl, fun _ => ⟨.trailingBackSlash, rfl⟩⟩
  | case3 d rest2 u hu ih =>
    rw [unescapeChars_cons_escape d u rest2 hu]
    simp only [hasBadEscape, hu]
    rw [except_map_error_iff]
    exact ih
  | case4 d rest2 hu =>
    simp only [hasBadEscape, hu]
    constructor
    · intro _; rfl
    · intro _
      refine ⟨.invalidEscape d, ?_⟩
      simp [unescapeChars, hu]
  | case5 d rest2 hd ih =>
    rw [unescapeChars_cons_plain d rest2 hd, hasBadEscape.eq_def]
    simp only [if_neg hd]
    rw [except_map_error_iff]
    exact ih

theorem hasBadEscape_of_no_backslash (s : List Char) (h : ¬ s.contains '\\') :
    hasBadEscape s = false := by
  induction s with
  | nil => rfl
  | cons c rest ih =>
    simp only [List.contains_cons, Bool.or_eq_true, not_or] at h
    obtain ⟨hc, hr⟩ := h
    have hc2 : ¬(c = '\\') := by
      intro he
      apply hc
      simp [he]
    rw [hasBadEscape.eq_def]
    simp only [if_neg hc2]
    exact ih hr

theorem escapeChars_contains_backslash (s : List Char)
    (h : s.any (fun c => (escapeCode c).isSome)) :
    (escapeChars s).contains '\\' := by
  induction s with
  | nil => simp at h
  | cons c rest ih =>
    rcases he : escapeCode c with _ | e
    · simp only [List.any_cons, he, Option.isSome_none, Bool.false_or] at h
      simp only [escapeChars, he, List.contains_cons]
      rw [ih h]
      simp
    · simp [escapeChars, he, List.contains_cons]

/-- **C8.** `unescape_str (escape_str s)` recovers `s` for every string;
`escape_str s` never contains NUL, newline or carriage return; and
`unescape_str` fails exactly on strings that end in a lone backslash or
contain a backslash followed by a character other than `0`, `n`, `r`, `\`
(scanning left to right, an escaped backslash consuming its escape). -/
theorem escaping_roundtrip_and_errors (s t : List Char) :
    unescapeStr (escapeStr s) = .ok s ∧
    (∀ c ∈ escapeStr s, c ≠ '\x00' ∧ c ≠ '\n' ∧ c ≠ '\r') ∧
    ((∃ e, unescapeStr t = .error e) ↔ hasBadEscape t = true) := by
  refine ⟨?_, ?_, ?_⟩
  · unfold escapeStr unescapeStr
    by_cases h : s.any (fun c => (escapeCode c).isSome)
    · rw [if_pos h, if_pos (escapeChars_contains_backslash s h)]
      exact unescapeChars_escapeChars s
    · rw [if_neg h]
      have : ¬ s.contains '\\' := by
        intro hc
        apply h
        rcases List.contains_iff_exists_mem_beq.mp hc with ⟨a, ha, hb⟩
        have hab : '\\' = a := by simpa using hb
        subst hab
        exact List.any_eq_true.mpr ⟨'\\', ha, by simp [escapeCode]⟩
      rw [if_neg this]
  · unfold escapeStr
    by_cases h : s.any (fun c => (escapeCode c).isSome)
    · rw [if_pos h]
      exact escapeChars_safe s
    · rw [if_neg h]
      intro c hc
      have : ¬ (escapeCode c).isSome := by
        intro hs
        exact h (List.any_eq_true.mpr ⟨c, hc, hs⟩)
      unfold escapeCode at this
      split_ifs at this with h0 hn hr hb
      · simp at this
      · simp at this
      · simp at this
      · simp at this
      · exact ⟨h0, hn, hr⟩
  · unfold unescapeStr
    by_cases h : t.contains '\\'
    · rw [if_pos h]
      exact unescapeChars_isOk_iff t
    · rw [if_neg h]
      rw [hasBadEscape_of_no_backslash t h]
      constructor
      · intro ⟨e, he⟩; cases he
      · intro hf; cases hf

/-! ## Comment lists (src/discrete_comment_list.rs, src/header/comment_list.rs)

Keys and values are the UTF-8 bytes of the Rust strings, as `List Nat`.
`str::eq_ignore_ascii_case` compares byte-by-byte after ASCII
lower-casing, which is exactly `keysEqual` below. -/

/-- A byte string: the UTF-8 bytes of a Rust `String` or a `Vec<u8>`. -/
abbrev Bytes := List Nat

/-- `u8::to_ascii_lowercase`. -/
def byteToLower (b : Nat) : Nat := if 65 ≤ b ∧ b ≤ 90 then b + 32 else b

/-- `DiscreteCommentList::keys_equal`, i.e. `str::eq_ignore_ascii_case`. -/
def keysEqual (k1 k2 : Bytes) : Bool := k1.map byteToLower = k2.map byteToLower

/-- One byte of a field name is valid when it lies in `' '..='<'` or
`'>'..='}'` (all those characters are single-byte in UTF-8, so the
char-level loop of `validate_comment_field_name` is this byte test). -/
def validFieldNameByte (b : Nat) : Bool := (32 ≤ b && b ≤ 60) || (62 ≤ b && b ≤ 125)

/-- `validate_comment_field_name` on the key's UTF-8 bytes. -/
def validateFieldNameBytes (k : Bytes) : Bool := k.all validFieldNameByte

/-- `DiscreteCommentList`: an ordered list of key/value pairs. -/
abbrev DiscreteCommentList := List (Bytes × Bytes)

/-- `DiscreteCommentList::push` (named `append` in some revisions):
validate the field name, then add the mapping at the end. -/
def pushComment (l : DiscreteCommentList) (k v : Bytes) :
    Except ZError DiscreteCommentList :=
  if validateFieldNameBytes k then .ok (l ++ [(k, v)]) else .error .invalidOpusCommentFieldName

/-- `DiscreteCommentList::remove_all`: retain the entries whose key does
not match. -/
def removeAllComment (l : DiscreteCommentList) (key : Bytes) : DiscreteCommentList :=
  l.filter (fun e => !keysEqual key e.1)

/-- `DiscreteCommentList::get_first`. -/
def getFirstComment (l : DiscreteCommentList) (key : Bytes) : Option Bytes :=
  (l.find? (fun e => keysEqual e.1 key)).map (·.2)

/-- The `retain_mut` pass of `DiscreteCommentList::replace`: `none` when no
entry matches, otherwise the list in which the first match keeps its key
and takes the new value and every later match is dropped. -/
def replaceFound : DiscreteCommentList → Bytes → Bytes → Option DiscreteCommentList
  | [], _, _ => none
  | (k0, v0) :: rest, key, value =>
    if keysEqual k0 key then
      some ((k0, value) :: rest.filter (fun e => !keysEqual e.1 key))
    else
      (replaceFound rest key value).map ((k0, v0) :: ·)

/-- `DiscreteCommentList::replace`: update the first match and drop later
matches, or append when the key is absent. -/
def replaceComment (l : DiscreteCommentList) (key value : Bytes) :
    Except ZError DiscreteCommentList :=
  match replaceFound l key value with
  | some l2 => .ok l2
  | none => pushComment l key value

theorem keysEqual_symm (k1 k2 : Bytes) : keysEqual k1 k2 = keysEqual k2 k1 := by
  unfold keysEqual
  by_cases h : k1.map byteToLower = k2.map byteToLower
  · rw [h]
  · rw [decide_eq_false h, decide_eq_false (fun he => h he.symm)]

theorem keysEqual_refl (k : Bytes) : keysEqual k k = true := by
  simp [keysEqual]

theorem replaceFound_none (l : DiscreteCommentList) (k v : Bytes)
    (h : replaceFound l k v = none) : ∀ x ∈ l, keysEqual x.1 k = false := by
  induction l with
  | nil => intro x hx; cases hx
  | cons a rest ih =>
    rcases a with ⟨k0, v0⟩
    unfold replaceFound at h
    by_cases ha : keysEqual k0 k
    · rw [if_pos ha] at h; cases h
    · rw [if_neg ha] at h
      intro x hx
      rcases List.mem_cons.mp hx with hx | hx
      · subst hx; simpa using ha
      · refine ih ?_ x hx
        rcases hg : replaceFound rest k v with _ | lg
        · rfl
        · rw [hg] at h; cases h

theorem replaceFound_some (l : DiscreteCommentList) (k v : Bytes)
    (lf : DiscreteCommentList) (h : replaceFound l k v = some lf) :
    ∃ pre e post,
      l = pre ++ e :: post ∧
      (∀ x ∈ pre, keysEqual x.1 k = false) ∧
      keysEqual e.1 k = true ∧
      lf = pre ++ (e.1, v) :: post.filter (fun x => !keysEqual x.1 k) := by
  induction l generalizing lf with
  | nil => cases h
  | cons a rest ih =>
    rcases a with ⟨k0, v0⟩
    unfold replaceFound at h
    by_cases ha : keysEqual k0 k
    · rw [if_pos ha] at h
      injection h with h2
      exact ⟨[], (k0, v0), rest, by simp, by simp, ha, by simp [h2.symm]⟩
    · rw [if_neg ha] at h
      rcases hg : replaceFound rest k v with _ | lg
      · rw [hg] at h; cases h
      · rw [hg] at h
        injection h with h2
        rcases ih lg hg with ⟨pre, e, post, hsplit, hpre, he, hres⟩
        refine ⟨(k0, v0) :: pre, e, post, by rw [hsplit]; rfl, ?_, he, ?_⟩
        · intro x hx
          rcases List.mem_cons.mp hx with hx | hx
          · subst hx; simpa using ha
          · exact hpre x hx
        · rw [← h2, hres]; rfl

/-- **C4.** When `replace(k, v)` succeeds, either some entry matched `k`
(ASCII-case-insensitively) — then the list splits as
`pre ++ e :: post` with no match in `pre`, and the result is
`pre ++ (e.key, v) :: post-without-matches` — or no entry matched and the
result is the original list with `(k, v)` appended.  In both cases the
result has exactly one entry whose key matches `k`, that entry holds `v`,
it sits at the position of the first prior match (or at the end), and the
non-matching entries keep their values and relative order. -/
theorem replaceComment_spec (l : DiscreteCommentList) (k v : Bytes)
    (l2 : DiscreteCommentList) (h : replaceComment l k v = .ok l2) :
    ((∃ pre e post,
        l = pre ++ e :: post ∧
        (∀ x ∈ pre, keysEqual x.1 k = false) ∧
        keysEqual e.1 k = true ∧
        l2 = pre ++ (e.1, v) :: post.filter (fun x => !keysEqual x.1 k)) ∨
      ((∀ x ∈ l, keysEqual x.1 k = false) ∧ l2 = l ++ [(k, v)])) ∧
    (l2.countP (fun x => keysEqual x.1 k) = 1) ∧
    (∀ x ∈ l2, keysEqual x.1 k = true → x.2 = v) := by
  have main : ((∃ pre e post,
        l = pre ++ e :: post ∧
        (∀ x ∈ pre, keysEqual x.1 k = false) ∧
        keysEqual e.1 k = true ∧
        l2 = pre ++ (e.1, v) :: post.filter (fun x => !keysEqual x.1 k)) ∨
      ((∀ x ∈ l, keysEqual x.1 k = false) ∧ l2 = l ++ [(k, v)])) := by
    unfold replaceComment at h
    rcases hf : replaceFound l k v with _ | lf
    · rw [hf] at h
      right
      unfold pushComment at h
      split_ifs at h with hv
      injection h with h2
      exact ⟨replaceFound_none l k v hf, h2.symm⟩
    · rw [hf] at h
      injection h with h2
      subst h2
      exact Or.inl (replaceFound_some l k v lf hf)
  refine ⟨main, ?_, ?_⟩
  · rcases main with ⟨pre, e, post, _, hpre, he, hres⟩ | ⟨hnone, hres⟩
    · subst hres
      rw [List.countP_append, List.countP_cons]
      have h1 : pre.countP (fun x => keysEqual x.1 k) = 0 := by
        rw [List.countP_eq_zero]
        intro x hx
        simp [hpre x hx]
      have h2 : (post.filter (fun x => !keysEqual x.1 k)).countP
          (fun x => keysEqual x.1 k) = 0 := by
        rw [List.countP_eq_zero]
        intro x hx
        have := List.of_mem_filter hx
        simpa using this
      simp [h1, h2, he]
    · subst hres
      rw [List.countP_append, List.countP_cons]
      have h1 : l.countP (fun x => keysEqual x.1 k) = 0 := by
        rw [List.countP_eq_zero]
        intro x hx
        simp [hnone x hx]
      simp [h1, keysEqual_refl]
  · rcases main with ⟨pre, e, post, _, hpre, he, hres⟩ | ⟨hnone, hres⟩
    · subst hres
      intro x hx hk
      rcases List.mem_append.mp hx with hx | hx
      · rw [hpre x hx] at hk; cases hk
      rcases List.mem_cons.mp hx with hx | hx
      · rw [hx]
      · have := List.of_mem_filter hx
        rw [hk] at this
        cases this
    · subst hres
      intro x hx hk
      rcases List.mem_append.mp hx with hx | hx
      · rw [hnone x hx] at hk; cases hk
      · rcases List.mem_singleton.mp hx with hx
        rw [hx]

/-- Witness for `replaceComment_spec`: replacing key `B` (bytes `[66]`) in
the two-entry list `b ↦ x, B ↦ y` updates the first, case-insensitive
match. -/
theorem replaceComment_spec_witness :
    replaceComment [([98], [120]), ([66], [121])] [66] [122] =
        .ok [([98], [122])] ∧
    (([([98], [122])] : DiscreteCommentList).countP
        (fun x => keysEqual x.1 [66]) = 1) := by
  refine ⟨by rfl, ?_⟩
  exact (replaceComment_spec [([98], [120]), ([66], [121])] [66] [122]
    [([98], [122])] (by rfl)).2.1

/-! ## Field-name validation at character level (src/header/comment_list.rs)

`validate_comment_field_name` iterates the `char`s of a `&str`; pushing
into a comment list stores the string whose bytes are its UTF-8
encoding.  The functions below model the character level and the UTF-8
encoding that connects it to the byte-level list operations. -/

/-- A character of a comment field name is valid when it lies in
`' '..='<'` or `'>'..='}'` (the match in `validate_comment_field_name`). -/
def validFieldNameChar (c : Char) : Bool := (' ' ≤ c && c ≤ '<') || ('>' ≤ c && c ≤ '}')

/-- `validate_comment_field_name`: every character must be valid. -/
def validateCommentFieldName (k : List Char) : Except ZError Unit :=
  if k.all validFieldNameChar then .ok () else .error .invalidOpusCommentFieldName

/-- `str::find('=')` followed by `split_at`: the text before the first
`'='` and the text after it. -/
def splitAtEqChar : List Char → Option (List Char × List Char)
  | [] => none
  | c :: rest =>
    if c = '=' then some ([], rest)
    else (splitAtEqChar rest).map (fun p => (c :: p.1, p.2))

/-- `parse_comment`: split at the first `'='` (missing separator is an
error) and validate the field name. -/
def parseCommentText (comment : List Char) : Except ZError (List Char × List Char) :=
  match splitAtEqChar comment with
  | none => .error .missingCommentSeparator
  | some (k, v) =>
    if k.all validFieldNameChar then .ok (k, v) else .error .invalidOpusCommentFieldName

/-- The UTF-8 encoding of one scalar value. -/
def utf8EncodeChar (c : Char) : Bytes :=
  if c.toNat < 128 then [c.toNat]
  else if c.toNat < 2048 then [192 + c.toNat / 64, 128 + c.toNat % 64]
  else if c.toNat < 65536 then
    [224 + c.toNat / 4096, 128 + c.toNat / 64 % 64, 128 + c.toNat % 64]
  else
    [240 + c.toNat / 262144, 128 + c.toNat / 4096 % 64, 128 + c.toNat / 64 % 64,
      128 + c.toNat % 64]

/-- The UTF-8 bytes of a string. -/
def utf8Encode (s : List Char) : Bytes := s.flatMap utf8EncodeChar

theorem utf8EncodeChar_all_valid (c : Char) :
    (utf8EncodeChar c).all validFieldNameByte = validFieldNameChar c := by
  have hchar : validFieldNameChar c =
      ((32 ≤ c.toNat && c.toNat ≤ 60) || (62 ≤ c.toNat && c.toNat ≤ 125)) := rfl
  unfold utf8EncodeChar
  rw [hchar]
  split_ifs with h1 h2 h3
  · simp only [List.all_cons, List.all_nil, Bool.and_true]
    rfl
  · have hb : validFieldNameByte (192 + c.toNat / 64) = false := by
      unfold validFieldNameByte
      have : 2 ≤ c.toNat / 64 := Nat.le_div_iff_mul_le (by omega) |>.mpr (by omega)
      simp only [Bool.or_eq_false_iff, Bool.and_eq_false_iff]
      constructor
      · right; simp; omega
      · right; simp; omega
    simp only [List.all_cons, hb, Bool.false_and]
    have : (32 ≤ c.toNat && c.toNat ≤ 60) = false := by simp; omega
    rw [this]
    have : (62 ≤ c.toNat && c.toNat ≤ 125) = false := by simp; omega
    rw [this]
    rfl
  · have hb : validFieldNameByte (224 + c.toNat / 4096) = false := by
      unfold validFieldNameByte
      simp only [Bool.or_eq_false_iff, Bool.and_eq_false_iff]
      constructor
      · right; simp; omega
      · right; simp; omega
    simp only [List.all_cons, hb, Bool.false_and]
    have : (32 ≤ c.toNat && c.toNat ≤ 60) = false := by simp; omega
    rw [this]
    have : (62 ≤ c.toNat && c.toNat ≤ 125) = false := by simp; omega
    rw [this]
    rfl
  · have hb : validFieldNameByte (240 + c.toNat / 262144) = false := by
      unfold validFieldNameByte
      simp only [Bool.or_eq_false_iff, Bool.and_eq_false_iff]
      constructor
      · right; simp; omega
      · right; simp; omega
    simp only [List.all_cons, hb, Bool.false_and]
    have : (32 ≤ c.toNat && c.toNat ≤ 60) = false := by simp; omega
    rw [this]
    have : (62 ≤ c.toNat && c.toNat ≤ 125) = false := by simp; omega
    rw [this]
    rfl

theorem validateFieldNameBytes_utf8 (k : List Char) :
    validateFieldNameBytes (utf8Encode k) = k.all validFieldNameChar := by
  induction k with
  | nil => rfl
  | cons c rest ih =>
    unfold validateFieldNameBytes utf8Encode at *
    simp only [List.flatMap_cons, List.all_append, List.all_cons, ih,
      utf8EncodeChar_all_valid]

/-- **C10.** Pushing `(k, v)` succeeds exactly when every character of `k`
lies in `' '..='<'` or `'>'..='}'`, failing with
`InvalidOpusCommentFieldName` otherwise; the empty key is accepted, and
`parse_comment` of a comment starting with `'='` succeeds with an empty
key. -/
theorem push_field_name_validation (l : DiscreteCommentList) (k : List Char) (v : Bytes) :
    ((∃ l2, pushComment l (utf8Encode k) v = .ok l2) ↔
      ∀ c ∈ k, (' ' ≤ c ∧ c ≤ '<') ∨ ('>' ≤ c ∧ c ≤ '}')) ∧
    (¬(∀ c ∈ k, (' ' ≤ c ∧ c ≤ '<') ∨ ('>' ≤ c ∧ c ≤ '}')) →
      pushComment l (utf8Encode k) v = .error .invalidOpusCommentFieldName) ∧
    (pushComment l [] v = .ok (l ++ [([], v)])) ∧
    (∀ rest, parseCommentText ('=' :: rest) = .ok ([], rest)) := by
  have hval : validateFieldNameBytes (utf8Encode k) = true ↔
      ∀ c ∈ k, (' ' ≤ c ∧ c ≤ '<') ∨ ('>' ≤ c ∧ c ≤ '}') := by
    rw [validateFieldNameBytes_utf8, List.all_eq_true]
    constructor
    · intro h c hc
      have := h c hc
      unfold validFieldNameChar at this
      simp only [Bool.or_eq_true, Bool.and_eq_true, decide_eq_true_eq] at this
      exact this
    · intro h c hc
      unfold validFieldNameChar
      simp only [Bool.or_eq_true, Bool.and_eq_true, decide_eq_true_eq]
      exact h c hc
  refine ⟨?_, ?_, ?_, ?_⟩
  · rw [← hval]
    unfold pushComment
    by_cases h : validateFieldNameBytes (utf8Encode k) = true
    · rw [if_pos h]
      exact ⟨fun _ => h, fun _ => ⟨_, rfl⟩⟩
    · rw [if_neg h]
      constructor
      · intro ⟨l2, hl2⟩; cases hl2
      · intro h2; exact absurd h2 h
  · rw [← hval]
    intro h
    unfold pushComment
    rw [if_neg h]
  · rfl
  · intro rest
    rfl

/-- Witness for `push_field_name_validation`: key `A` is accepted and key
`é` (a non-ASCII character) is rejected. -/
theorem push_field_name_validation_witness :
    pushComment [] (utf8Encode ['A']) [] = .ok [((utf8Encode ['A']), [])] ∧
    pushComment [] (utf8Encode ['é']) [] = .error .invalidOpusCommentFieldName ∧
    parseCommentText ('=' :: ['x']) = .ok ([], ['x']) := by
  refine ⟨?_, ?_, (push_field_name_validation [] ['A'] []).2.2.2 ['x']⟩
  · rcases (push_field_name_validation [] ['A'] []).1.mpr (by decide) with ⟨l2, hl2⟩
    rw [hl2]
    have : l2 = [((utf8Encode ['A']), [])] := by
      have h2 := hl2
      unfold pushComment at h2
      rw [if_pos (by decide)] at h2
      injection h2 with h3
      · exact h3.symm
    rw [this]
  · exact (push_field_name_validation [] ['é'] []).2.1 (by decide)

/-! ## Comment headers (src/header/comment_header_generic.rs,
src/opus/comment_header.rs, src/vorbis/comment_header.rs)

The parser reads from a cursor over the packet bytes; the cursor is the
remaining byte list. -/

/-- The little-endian bytes of a `u32` (`byteorder::LittleEndian`). -/
def u32le (n : Nat) : Bytes :=
  [n % 256, n / 256 % 256, n / 65536 % 256, n / 16777216 % 256]

/-- `read_u32::<LittleEndian>`: consume four bytes, failing with
`MalformedCommentHeader` when fewer remain (`read_length`). -/
def readLen (bs : Bytes) : Except ZError (Nat × Bytes) :=
  match bs with
  | b0 :: b1 :: b2 :: b3 :: rest =>
    .ok (b0 + 256 * b1 + 65536 * b2 + 16777216 * b3, rest)
  | _ => .error .malformedCommentHeader

/-- `read_exact`: consume exactly `n` bytes, failing with
`MalformedCommentHeader` when fewer remain. -/
def readExactBytes (n : Nat) (bs : Bytes) : Except ZError (Bytes × Bytes) :=
  if n ≤ bs.length then .ok (bs.take n, bs.drop n) else .error .malformedCommentHeader

/-- `String::from_utf8` succeeds exactly on well-formed UTF-8
(RFC 3629 ranges, shortest forms, no surrogates). -/
def utf8Valid : Bytes → Bool
  | [] => true
  | b :: rest =>
    if b < 128 then utf8Valid rest
    else if 194 ≤ b && b ≤ 223 then
      match rest with
      | b1 :: rest2 => (128 ≤ b1 && b1 ≤ 191) && utf8Valid rest2
      | [] => false
    else if 224 ≤ b && b ≤ 239 then
      match rest with
      | b1 :: b2 :: rest2 =>
        (if b = 224 then 160 ≤ b1 && b1 ≤ 191
         else if b = 237 then 128 ≤ b1 && b1 ≤ 159
         else 128 ≤ b1 && b1 ≤ 191) &&
        (128 ≤ b2 && b2 ≤ 191) && utf8Valid rest2
      | _ => false
    else if 240 ≤ b && b ≤ 244 then
      match rest with
      | b1 :: b2 :: b3 :: rest2 =>
        (if b = 240 then 144 ≤ b1 && b1 ≤ 191
         else if b = 244 then 128 ≤ b1 && b1 ≤ 143
         else 128 ≤ b1 && b1 ≤ 191) &&
        (128 ≤ b2 && b2 ≤ 191) && (128 ≤ b3 && b3 ≤ 191) && utf8Valid rest2
      | _ => false
    else false

/-- `str::find('=')` / `split_at` on the UTF-8 bytes of the comment text:
the bytes before the first `'='` byte (0x3D, which never occurs inside a
multi-byte sequence) and the bytes after it. -/
def splitAtEq : Bytes → Option (Bytes × Bytes)
  | [] => none
  | b :: rest =>
    if b = 61 then some ([], rest)
    else (splitAtEq rest).map (fun p => (b :: p.1, p.2))

/-- `parse_comment` on the comment's bytes: split at the first `'='`
(missing separator is an error) and validate the field name. -/
def parseCommentBytes (c : Bytes) : Except ZError (Bytes × Bytes) :=
  match splitAtEq c with
  | none => .error .missingCommentSeparator
  | some (k, v) =>
    if validateFieldNameBytes k then .ok (k, v) else .error .invalidOpusCommentFieldName

/-- The comment-reading loop of `try_parse`: `num_comments` iterations of
length-prefixed record reads, decoding and pushing each comment. -/
def parseCommentsLoop : Nat → Bytes → DiscreteCommentList →
    Except ZError (DiscreteCommentList × Bytes)
  | 0, bs, acc => .ok (acc, bs)
  | n + 1, bs, acc => do
    let (len, bs1) ← readLen bs
    let (c, bs2) ← readExactBytes len bs1
    if utf8Valid c then do
      let (k, v) ← parseCommentBytes c
      let acc2 ← pushComment acc k v
      parseCommentsLoop n bs2 acc2
    else
      .error .invalidUtf8

/-- The codec-independent part of `CommentHeaderGeneric::try_parse`: magic
check, vendor string, comment records.  Returns the parsed fields together
with the bytes remaining for the codec-specific suffix reader. -/
def parseHeaderCore (magic : Bytes) (data : Bytes) :
    Except ZError (Bytes × DiscreteCommentList × Bytes) :=
  if data.take magic.length = magic then do
    let rest := data.drop magic.length
    let (vlen, r1) ← readLen rest
    let (vendor, r2) ← readExactBytes vlen r1
    if utf8Valid vendor then do
      let (count, r3) ← readLen r2
      let (comments, r4) ← parseCommentsLoop count r3 []
      .ok (vendor, comments, r4)
    else
      .error .invalidUtf8
  else
    .error .malformedCommentHeader

/-- `CommentHeaderSpecifics` (the Rust trait): magic bytes, a suffix
reader run on the bytes left after the comments, and a suffix writer. -/
class CommentHeaderSpecifics (S : Type) where
  getMagic : Bytes
  readSuffix : Bytes → Except ZError S
  writeSuffix : S → Bytes

/-- `CommentHeaderGeneric`: vendor string, user comments and
codec-specific suffix state. -/
structure CommentHeaderGeneric (S : Type) where
  vendor : Bytes
  userComments : DiscreteCommentList
  specifics : S
deriving DecidableEq

/-- `CommentHeaderGeneric::try_parse`. -/
def tryParseComment (S : Type) [CommentHeaderSpecifics S] (data : Bytes) :
    Except ZError (CommentHeaderGeneric S) := do
  let (vendor, comments, rem) ← parseHeaderCore (CommentHeaderSpecifics.getMagic S) data
  let s ← CommentHeaderSpecifics.readSuffix rem
  .ok ⟨vendor, comments, s⟩

/-- The comment-record section written by `into_vec`: per comment a `u32`
length (checked to fit), the key bytes, `'='`, the value bytes. -/
def serializeComments : DiscreteCommentList → Except ZError Bytes
  | [] => .ok []
  | (k, v) :: rest =>
    if k.length + v.length + 1 < 4294967296 then do
      let tail ← serializeComments rest
      .ok (u32le (k.length + v.length + 1) ++ k ++ 61 :: (v ++ tail))
    else
      .error .unrepresentableValueInCommentHeader

/-- `CommentHeaderGeneric::into_vec`: magic, vendor length (checked to fit
a `u32`), vendor, comment count (checked), comment records, suffix. -/
def commentIntoVec {S : Type} [CommentHeaderSpecifics S]
    (h : CommentHeaderGeneric S) : Except ZError Bytes :=
  if h.vendor.length < 4294967296 then
    if h.userComments.length < 4294967296 then do
      let cb ← serializeComments h.userComments
      .ok (CommentHeaderSpecifics.getMagic S ++ u32le h.vendor.length ++ h.vendor ++
        u32le h.userComments.length ++ cb ++
        CommentHeaderSpecifics.writeSuffix h.specifics)
    else
      .error .unrepresentableValueInCommentHeader
  else
    .error .unrepresentableValueInCommentHeader

/-- Opus suffix state: the preserved experimental data
(src/opus/comment_header.rs). -/
structure OpusSpecifics where
  suffixData : Bytes
deriving DecidableEq

/-- `b"OpusTags"`. -/
def opusCommentMagic : Bytes := [79, 112, 117, 115, 84, 97, 103, 115]

/-- Opus `read_suffix`: keep the whole remainder when its first byte has
its least-significant bit set, otherwise discard it. -/
def opusReadSuffix (rem : Bytes) : Except ZError OpusSpecifics :=
  match rem with
  | [] => .ok ⟨[]⟩
  | b :: rest => if b % 2 = 1 then .ok ⟨b :: rest⟩ else .ok ⟨[]⟩

/-- Opus `write_suffix`: emit the preserved data verbatim. -/
def opusWriteSuffix (s : OpusSpecifics) : Bytes := s.suffixData

instance : CommentHeaderSpecifics OpusSpecifics where
  getMagic := opusCommentMagic
  readSuffix := opusReadSuffix
  writeSuffix := opusWriteSuffix

/-- Vorbis suffix state (src/vorbis/comment_header.rs): nothing is kept. -/
structure VorbisSpecifics where
deriving DecidableEq

/-- `b"\x03vorbis"`. -/
def vorbisCommentMagic : Bytes := [3, 118, 111, 114, 98, 105, 115]

/-- Vorbis `read_suffix`: one byte must be available and its
least-significant bit must be set; later bytes are ignored. -/
def vorbisReadSuffix (rem : Bytes) : Except ZError VorbisSpecifics :=
  match rem with
  | [] => .error .malformedCommentHeader
  | b :: _ => if b % 2 = 1 then .ok ⟨⟩ else .error .malformedCommentHeader

/-- Vorbis `write_suffix`: the framing byte 1. -/
def vorbisWriteSuffix (_ : VorbisSpecifics) : Bytes := [1]

instance : CommentHeaderSpecifics VorbisSpecifics where
  getMagic := vorbisCommentMagic
  readSuffix := vorbisReadSuffix
  writeSuffix := vorbisWriteSuffix

/-- `opus::CommentHeader::try_parse`. -/
def opusTryParseComment (data : Bytes) : Except ZError (CommentHeaderGeneric OpusSpecifics) :=
  tryParseComment OpusSpecifics data

/-- `vorbis::CommentHeader::try_parse`. -/
def vorbisTryParseComment (data : Bytes) :
    Except ZError (CommentHeaderGeneric VorbisSpecifics) :=
  tryParseComment VorbisSpecifics data

/-- All elements of a byte list are bytes. -/
abbrev allBytes (bs : Bytes) : Prop := ∀ b ∈ bs, b < 256

theorem readLen_spec (bs : Bytes) (n : Nat) (rest : Bytes)
    (h : readLen bs = .ok (n, rest)) (hb : allBytes bs) :
    bs = u32le n ++ rest ∧ n < 4294967296 := by
  rcases bs with _ | ⟨b0, _ | ⟨b1, _ | ⟨b2, _ | ⟨b3, tl⟩⟩⟩⟩ <;>
    simp only [readLen] at h
  · cases h
  · cases h
  · cases h
  · cases h
  · injection h with h2
    injection h2 with hn hrest
    subst hn
    subst hrest
    have hb0 : b0 < 256 := hb b0 (by simp)
    have hb1 : b1 < 256 := hb b1 (by simp)
    have hb2 : b2 < 256 := hb b2 (by simp)
    have hb3 : b3 < 256 := hb b3 (by simp)
    constructor
    · unfold u32le
      have e0 : (b0 + 256 * b1 + 65536 * b2 + 16777216 * b3) % 256 = b0 := by omega
      have e1 : (b0 + 256 * b1 + 65536 * b2 + 16777216 * b3) / 256 % 256 = b1 := by omega
      have e2 : (b0 + 256 * b1 + 65536 * b2 + 16777216 * b3) / 65536 % 256 = b2 := by omega
      have e3 : (b0 + 256 * b1 + 65536 * b2 + 16777216 * b3) / 16777216 % 256 = b3 := by
        omega
      rw [e0, e1, e2, e3]
      rfl
    · omega

theorem readExactBytes_spec (n : Nat) (bs : Bytes) (c rest : Bytes)
    (h : readExactBytes n bs = .ok (c, rest)) :
    bs = c ++ rest ∧ c.length = n := by
  unfold readExactBytes at h
  split_ifs at h with hle
  injection h with h2
  injection h2 with hc hrest
  subst hc
  subst hrest
  exact ⟨(List.take_append_drop n bs).symm, List.length_take_of_le hle⟩

theorem splitAtEq_spec (c : Bytes) (k v : Bytes) (h : splitAtEq c = some (k, v)) :
    c = k ++ 61 :: v := by
  induction c generalizing k with
  | nil => cases h
  | cons b rest ih =>
    unfold splitAtEq at h
    split_ifs at h with hb
    · subst hb
      injection h with h2
      injection h2 with hk hv
      subst hk
      subst hv
      rfl
    · rcases hs : splitAtEq rest with _ | ⟨k2, v2⟩
      · rw [hs] at h; cases h
      · rw [hs] at h
        injection h with h2
        injection h2 with hk hv
        subst hv
        rw [← hk]
        rw [ih k2 hs]
        rfl

theorem parseCommentBytes_spec (c : Bytes) (k v : Bytes)
    (h : parseCommentBytes c = .ok (k, v)) :
    c = k ++ 61 :: v ∧ validateFieldNameBytes k = true := by
  unfold parseCommentBytes at h
  split at h
  · cases h
  · rename_i k2 v2 hs
    split_ifs at h with hv2
    injection h with h2
    injection h2 with hk hv
    subst hk
    subst hv
    exact ⟨splitAtEq_spec c _ _ hs, hv2⟩

theorem pushComment_ok (l : DiscreteCommentList) (k v : Bytes)
    (l2 : DiscreteCommentList) (h : pushComment l k v = .ok l2) :
    l2 = l ++ [(k, v)] := by
  unfold pushComment at h
  split_ifs at h
  injection h with h2
  exact h2.symm

theorem parseCommentsLoop_spec (n : Nat) (bs : Bytes) (acc : DiscreteCommentList)
    (res : DiscreteCommentList) (rest : Bytes)
    (h : parseCommentsLoop n bs acc = .ok (res, rest)) (hb : allBytes bs) :
    ∃ newPart consumed,
      res = acc ++ newPart ∧
      bs = consumed ++ rest ∧
      serializeComments newPart = .ok consumed ∧
      res.length = acc.length + n := by
  induction n generalizing bs acc with
  | zero =>
    simp only [parseCommentsLoop] at h
    injection h with h2
    injection h2 with hres hrest
    subst hres
    subst hrest
    exact ⟨[], [], by simp, by simp, rfl, by simp⟩
  | succ m ih =>
    simp only [parseCommentsLoop, bind, Except.bind] at h
    split at h
    · cases h
    rename_i p1 hr
    obtain ⟨len, bs1⟩ := p1
    split at h
    · cases h
    rename_i p2 he
    obtain ⟨c, bs2⟩ := p2
    split_ifs at h with hutf
    split at h
    · cases h
    rename_i p3 hp
    obtain ⟨k, v⟩ := p3
    split at h
    · cases h
    rename_i acc2 hpu
    obtain ⟨hbs_eq, hlen_lt⟩ := readLen_spec bs len bs1 hr hb
    have hb1 : allBytes bs1 := by
      intro b hbm
      exact hb b (by rw [hbs_eq]; exact List.mem_append_right _ hbm)
    obtain ⟨hbs1_eq, hclen⟩ := readExactBytes_spec len bs1 c bs2 he
    have hb2 : allBytes bs2 := by
      intro b hbm
      exact hb1 b (by rw [hbs1_eq]; exact List.mem_append_right _ hbm)
    obtain ⟨hc_eq, hkval⟩ := parseCommentBytes_spec c k v hp
    have hacc2 := pushComment_ok acc k v acc2 hpu
    obtain ⟨newPart, consumed, hres_eq, hbs2_eq, hser, hreslen⟩ := ih bs2 acc2 h hb2
    refine ⟨(k, v) :: newPart, u32le len ++ c ++ consumed, ?_, ?_, ?_, ?_⟩
    · rw [hres_eq, hacc2]
      simp
    · rw [hbs_eq, hbs1_eq, hbs2_eq]
      simp
    · have hlen_eq : k.length + v.length + 1 = len := by
        rw [← hclen, hc_eq]
        simp
        omega
      simp only [serializeComments, hlen_eq]
      rw [if_pos hlen_lt, hser]
      simp only [bind, Except.bind]
      rw [hc_eq]
      simp
    · rw [hreslen, hacc2]
      simp
      omega

theorem parseHeaderCore_spec (magic data : Bytes) (vendor : Bytes)
    (comments : DiscreteCommentList) (rem : Bytes)
    (h : parseHeaderCore magic data = .ok (vendor, comments, rem)) (hb : allBytes data) :
    ∃ cb,
      serializeComments comments = .ok cb ∧
      data = magic ++ u32le vendor.length ++ vendor ++ u32le comments.length ++ cb ++ rem ∧
      vendor.length < 4294967296 ∧ comments.length < 4294967296 := by
  unfold parseHeaderCore at h
  split_ifs at h with hmagic
  simp only [bind, Except.bind] at h
  split at h
  · cases h
  rename_i p1 hr
  obtain ⟨vlen, r1⟩ := p1
  split at h
  · cases h
  rename_i p2 he
  obtain ⟨vend, r2⟩ := p2
  split_ifs at h with hutf
  split at h
  · cases h
  rename_i p3 hc
  obtain ⟨count, r3⟩ := p3
  split at h
  · cases h
  rename_i p4 hl
  obtain ⟨cmts, r4⟩ := p4
  injection h with h2
  injection h2 with hv h3
  injection h3 with hcm hrem
  subst hv
  subst hcm
  subst hrem
  have hdata_eq : data = magic ++ data.drop magic.length := by
    conv_lhs => rw [← List.take_append_drop magic.length data]
    rw [hmagic]
  have hbd : allBytes (data.drop magic.length) := by
    intro b hbm
    exact hb b (by rw [hdata_eq]; exact List.mem_append_right _ hbm)
  obtain ⟨hr1_eq, hvlen_lt⟩ := readLen_spec _ vlen r1 hr hbd
  have hb1 : allBytes r1 := by
    intro b hbm
    exact hbd b (by rw [hr1_eq]; exact List.mem_append_right _ hbm)
  obtain ⟨hr2_eq, hvendlen⟩ := readExactBytes_spec vlen r1 vend r2 he
  have hb2 : allBytes r2 := by
    intro b hbm
    exact hb1 b (by rw [hr2_eq]; exact List.mem_append_right _ hbm)
  obtain ⟨hr3_eq, hcount_lt⟩ := readLen_spec r2 count r3 hc hb2
  have hb3 : allBytes r3 := by
    intro b hbm
    exact hb2 b (by rw [hr3_eq]; exact List.mem_append_right _ hbm)
  obtain ⟨newPart, consumed, hres_eq, hr4_eq, hser, hreslen⟩ :=
    parseCommentsLoop_spec count r3 [] cmts r4 hl hb3
  simp only [List.nil_append] at hres_eq
  simp only [List.length_nil, Nat.zero_add] at hreslen
  subst hres_eq
  refine ⟨consumed, hser, ?_, by rw [hvendlen]; exact hvlen_lt, by rw [hreslen]; exact hcount_lt⟩
  rw [hdata_eq, hr1_eq, hr2_eq, hr3_eq, hr4_eq, hvendlen, hreslen]
  simp

theorem commentIntoVec_roundtrip {S : Type} [CommentHeaderSpecifics S]
    (data : Bytes) (vendor : Bytes) (comments : DiscreteCommentList) (rem : Bytes)
    (s : S)
    (hcore : parseHeaderCore (CommentHeaderSpecifics.getMagic S) data =
      .ok (vendor, comments, rem))
    (hb : allBytes data)
    (hsuffix : CommentHeaderSpecifics.readSuffix rem = .ok s)
    (hwrite : CommentHeaderSpecifics.writeSuffix s = rem) :
    tryParseComment S data = .ok ⟨vendor, comments, s⟩ ∧
    commentIntoVec (⟨vendor, comments, s⟩ : CommentHeaderGeneric S) = .ok data := by
  obtain ⟨cb, hser, hdata_eq, hvlt, hclt⟩ :=
    parseHeaderCore_spec (CommentHeaderSpecifics.getMagic S) data vendor comments rem
      hcore hb
  constructor
  · unfold tryParseComment
    simp only [bind, Except.bind, hcore, hsuffix]
  · unfold commentIntoVec
    rw [if_pos hvlt, if_pos hclt]
    simp only [bind, Except.bind, hser]
    rw [hwrite, ← hdata_eq]

/-- **C2 (amended).** For every comment header byte sequence accepted by the
parser, serializing the parsed header returns the original bytes —
vendor bytes, comment order with duplicates, and suffix included —
provided the bytes left after the last comment are in the form the suffix
writer re-emits: for Opus an empty tail or a tail whose first byte has its
least-significant bit set, for Vorbis exactly the single framing byte 1.
(On other accepted inputs the suffix bytes are normalized, see the
counterexample.) -/
theorem comment_header_roundtrip (data : Bytes) (hb : allBytes data) :
    (∀ vendor comments rem,
      parseHeaderCore opusCommentMagic data = .ok (vendor, comments, rem) →
      (rem = [] ∨ ∃ b t, rem = b :: t ∧ b % 2 = 1) →
      ∃ h, opusTryParseComment data = .ok h ∧ commentIntoVec h = .ok data) ∧
    (∀ vendor comments rem,
      parseHeaderCore vorbisCommentMagic data = .ok (vendor, comments, rem) →
      rem = [1] →
      ∃ h, vorbisTryParseComment data = .ok h ∧ commentIntoVec h = .ok data) := by
  constructor
  · intro vendor comments rem hcore hrem
    refine ⟨⟨vendor, comments, ⟨rem⟩⟩, ?_⟩
    have hsuffix : opusReadSuffix rem = .ok ⟨rem⟩ := by
      rcases hrem with hrem | ⟨b, t, hrem, hodd⟩
      · subst hrem; rfl
      · subst hrem
        simp only [opusReadSuffix]
        rw [if_pos hodd]
    have hwrite : opusWriteSuffix ⟨rem⟩ = rem := rfl
    exact commentIntoVec_roundtrip data vendor comments rem
      (⟨rem⟩ : OpusSpecifics) hcore hb hsuffix hwrite
  · intro vendor comments rem hcore hrem
    subst hrem
    refine ⟨⟨vendor, comments, ⟨⟩⟩, ?_⟩
    have hsuffix : vorbisReadSuffix [1] = .ok ⟨⟩ := rfl
    have hwrite : vorbisWriteSuffix ⟨⟩ = [1] := rfl
    exact commentIntoVec_roundtrip data vendor comments [1]
      (⟨⟩ : VorbisSpecifics) hcore hb hsuffix hwrite

/-- Witness for `comment_header_roundtrip`: the minimal Opus comment header
(empty vendor, no comments, no tail) round-trips. -/
theorem comment_header_roundtrip_witness :
    ∃ h, opusTryParseComment
        [79, 112, 117, 115, 84, 97, 103, 115, 0, 0, 0, 0, 0, 0, 0, 0] = .ok h ∧
      commentIntoVec h =
        .ok [79, 112, 117, 115, 84, 97, 103, 115, 0, 0, 0, 0, 0, 0, 0, 0] :=
  (comment_header_roundtrip
    [79, 112, 117, 115, 84, 97, 103, 115, 0, 0, 0, 0, 0, 0, 0, 0]
    (by decide)).1 [] [] [] rfl (Or.inl rfl)

/-- Counterexample to **C2** as stated: the Opus comment header consisting
of the magic, an empty vendor, zero comments and the single tail byte 0
(least-significant bit clear) is accepted by the parser, but serializing
the parsed header drops the tail byte, so parse-then-serialize is not the
identity on this valid input. -/
theorem comment_header_roundtrip_cex :
    opusTryParseComment
        [79, 112, 117, 115, 84, 97, 103, 115, 0, 0, 0, 0, 0, 0, 0, 0, 0] =
      .ok ⟨[], [], ⟨[]⟩⟩ ∧
    commentIntoVec (⟨[], [], ⟨[]⟩⟩ : CommentHeaderGeneric OpusSpecifics) =
      .ok [79, 112, 117, 115, 84, 97, 103, 115, 0, 0, 0, 0, 0, 0, 0, 0] ∧
    [79, 112, 117, 115, 84, 97, 103, 115, 0, 0, 0, 0, 0, 0, 0, 0] ≠
      [79, 112, 117, 115, 84, 97, 103, 115, 0, 0, 0, 0, 0, 0, 0, 0, 0] :=
  ⟨rfl, rfl, by decide⟩

/-- **C5.** When parsing the bytes after the last Opus comment, a non-empty
remainder is kept in full exactly when its first byte has its
least-significant bit set — and `write_suffix` re-emits the kept bytes
verbatim — while any other remainder is dropped and nothing is written
back. -/
theorem opus_suffix_discrimination (b : Nat) (t : Bytes) :
    opusReadSuffix [] = .ok ⟨[]⟩ ∧
    (b % 2 = 1 →
      opusReadSuffix (b :: t) = .ok ⟨b :: t⟩ ∧ opusWriteSuffix ⟨b :: t⟩ = b :: t) ∧
    (b % 2 ≠ 1 →
      opusReadSuffix (b :: t) = .ok ⟨[]⟩ ∧
        opusWriteSuffix (⟨[]⟩ : OpusSpecifics) = []) := by
  refine ⟨rfl, ?_, ?_⟩
  · intro hodd
    simp only [opusReadSuffix]
    rw [if_pos hodd]
    exact ⟨rfl, rfl⟩
  · intro heven
    simp only [opusReadSuffix]
    rw [if_neg heven]
    exact ⟨rfl, rfl⟩

/-- Witness for `opus_suffix_discrimination`: tail `[1, 7]` is preserved,
tail `[2, 7]` is dropped. -/
theorem opus_suffix_discrimination_witness :
    (opusReadSuffix [1, 7] = .ok ⟨[1, 7]⟩ ∧ opusWriteSuffix ⟨[1, 7]⟩ = [1, 7]) ∧
    (opusReadSuffix [2, 7] = .ok ⟨[]⟩ ∧ opusWriteSuffix (⟨[]⟩ : OpusSpecifics) = []) :=
  ⟨(opus_suffix_discrimination 1 [7]).2.1 (by decide),
   (opus_suffix_discrimination 2 [7]).2.2 (by decide)⟩

/-! ## Opus identification header (src/opus/id_header.rs) -/

/-- `b"OpusHead"`. -/
def opusIdMagic : Bytes := [79, 112, 117, 115, 72, 101, 97, 100]

/-- `opus::IdHeader` stores the raw header bytes. -/
structure OpusIdHeader where
  data : Bytes
deriving DecidableEq

/-- `IdHeader::version`: byte 8. -/
def OpusIdHeader.version (h : OpusIdHeader) : Nat := h.data.getD 8 0

/-- `IdHeader::num_output_channels`: byte 9. -/
def OpusIdHeader.numOutputChannels (h : OpusIdHeader) : Nat := h.data.getD 9 0

/-- `opus::IdHeader::try_parse`: `None` when too short or the magic is
absent; an error when the version is not 1 or the channel count is 0;
otherwise the header wrapping a copy of the input bytes. -/
def tryParseOpusId (data : Bytes) : Except ZError (Option OpusIdHeader) :=
  if data.length < 19 then .ok none
  else if data.take 8 = opusIdMagic then
    if (⟨data⟩ : OpusIdHeader).version ≠ 1 then .error .unsupportedCodecVersion
    else if (⟨data⟩ : OpusIdHeader).numOutputChannels = 0 then
      .error .malformedIdentificationHeader
    else .ok (some ⟨data⟩)
  else .ok none

/-- The two little-endian bytes of an `i16` (`write_i16::<LittleEndian>`). -/
def i16loByte (v : Int) : Nat := (v % 65536).toNat % 256

def i16hiByte (v : Int) : Nat := (v % 65536).toNat / 256

/-- Reading an `i16` from two little-endian bytes
(`read_i16::<LittleEndian>`). -/
def leBytesToI16 (lo hi : Nat) : Int :=
  if lo + 256 * hi < 32768 then (lo + 256 * hi : Int) else (lo + 256 * hi : Int) - 65536

/-- `IdHeader::get_output_gain`: the `i16` at bytes 16–17, little-endian. -/
def OpusIdHeader.getOutputGain (h : OpusIdHeader) : FixedPointGain :=
  ⟨leBytesToI16 (h.data.getD 16 0) (h.data.getD 17 0)⟩

/-- `IdHeader::set_output_gain`: overwrite bytes 16–17 with the gain's
`i16` in little-endian order. -/
def OpusIdHeader.setOutputGain (h : OpusIdHeader) (g : FixedPointGain) : OpusIdHeader :=
  ⟨(h.data.set 16 (i16loByte g.value)).set 17 (i16hiByte g.value)⟩

/-- `IdHeader::serialize_into` / `into_vec` emit the stored bytes. -/
def OpusIdHeader.serialize (h : OpusIdHeader) : Bytes := h.data

theorem tryParseOpusId_ok (data : Bytes) (h : OpusIdHeader)
    (hp : tryParseOpusId data = .ok (some h)) :
    h.data = data ∧ 19 ≤ data.length := by
  unfold tryParseOpusId at hp
  split_ifs at hp with h1 h2 h3 h4
  all_goals try exact Option.noConfusion (Except.ok.inj hp)
  injection hp with hp2
  injection hp2 with hp3
  rw [← hp3]
  exact ⟨rfl, by omega⟩

/-- **C9.** For a successfully parsed Opus identification header,
serialization with no mutation reproduces the input bytes verbatim, and
after `set_output_gain(g)` the serialized bytes agree with the input
everywhere except positions 16 and 17, which hold `g`'s `i16` value in
little-endian order. -/
theorem id_header_set_gain_frame (data : Bytes) (h : OpusIdHeader) (g : FixedPointGain)
    (hp : tryParseOpusId data = .ok (some h))
    (hglo : i16min ≤ g.value) (hghi : g.value ≤ i16max) :
    h.serialize = data ∧
    (h.setOutputGain g).serialize.length = data.length ∧
    (∀ i, i ≠ 16 → i ≠ 17 → (h.setOutputGain g).serialize[i]? = data[i]?) ∧
    (h.setOutputGain g).serialize[16]? = some (i16loByte g.value) ∧
    (h.setOutputGain g).serialize[17]? = some (i16hiByte g.value) ∧
    leBytesToI16 (i16loByte g.value) (i16hiByte g.value) = g.value := by
  obtain ⟨hdata, hlen⟩ := tryParseOpusId_ok data h hp
  subst hdata
  unfold OpusIdHeader.serialize OpusIdHeader.setOutputGain
  have hu : (g.value % 65536).toNat < 65536 := by
    have h1 : (0 : Int) ≤ g.value % 65536 := Int.emod_nonneg g.value (by norm_num)
    have h2 : g.value % 65536 < 65536 := Int.emod_lt_of_pos g.value (by norm_num)
    omega
  refine ⟨rfl, by simp, ?_, ?_, ?_, ?_⟩
  · intro i hi16 hi17
    rw [List.getElem?_set_ne (by omega), List.getElem?_set_ne (by omega)]
  · rw [List.getElem?_set_ne (by omega), List.getElem?_set_eq_of_lt _ (by omega)]
  · rw [List.getElem?_set_eq_of_lt _ (by simp; omega)]
  · unfold leBytesToI16 i16loByte i16hiByte
    have hmod : g.value % 65536 = if 0 ≤ g.value then g.value else g.value + 65536 := by
      simp only [i16min, i16max] at hglo hghi
      split_ifs with hs
      · rw [Int.emod_eq_of_lt hs (by omega)]
      · omega
    split_ifs at hmod with hs
    · rw [hmod]
      have ht : (g.value).toNat < 32768 := by
        simp only [i16max] at hghi
        omega
      rw [if_pos (by omega)]
      omega
    · rw [hmod]
      have ht : 32768 ≤ (g.value + 65536).toNat := by
        simp only [i16min] at hglo
        omega
      rw [if_neg (by omega)]
      omega

/-- Witness for `id_header_set_gain_frame`: a minimal 19-byte header with
gain set to −1 (bytes 255, 255). -/
theorem id_header_set_gain_frame_witness :
    (OpusIdHeader.mk [79, 112, 117, 115, 72, 101, 97, 100, 1, 1, 0, 0, 0,
        0, 0, 0, 0, 0, 0]).serialize =
      [79, 112, 117, 115, 72, 101, 97, 100, 1, 1, 0, 0, 0, 0, 0, 0, 0, 0, 0] ∧
    ((OpusIdHeader.mk [79, 112, 117, 115, 72, 101, 97, 100, 1, 1, 0, 0, 0,
        0, 0, 0, 0, 0, 0]).setOutputGain ⟨-1⟩).serialize.length =
      ([79, 112, 117, 115, 72, 101, 97, 100, 1, 1, 0, 0, 0, 0, 0, 0, 0, 0, 0] :
        Bytes).length ∧
    ((OpusIdHeader.mk [79, 112, 117, 115, 72, 101, 97, 100, 1, 1, 0, 0, 0,
        0, 0, 0, 0, 0, 0]).setOutputGain ⟨-1⟩).serialize[16]? =
      some (i16loByte (-1)) :=
  have hmain := id_header_set_gain_frame
    [79, 112, 117, 115, 72, 101, 97, 100, 1, 1, 0, 0, 0, 0, 0, 0, 0, 0, 0]
    ⟨[79, 112, 117, 115, 72, 101, 97, 100, 1, 1, 0, 0, 0, 0, 0, 0, 0, 0, 0]⟩
    ⟨-1⟩ rfl (by decide) (by decide)
  ⟨hmain.1, hmain.2.1, hmain.2.2.2.1⟩

/-! ## Vorbis identification header (src/vorbis/id_header.rs) -/

/-- `b"\x01vorbis"`. -/
def vorbisIdMagic : Bytes := [1, 118, 111, 114, 98, 105, 115]

/-- `vorbis::IdHeader` stores the raw header bytes. -/
structure VorbisIdHeader where
  data : Bytes
deriving DecidableEq

/-- `IdHeader::version`: the `u32` at bytes 7–10, little-endian. -/
def VorbisIdHeader.version (h : VorbisIdHeader) : Nat :=
  h.data.getD 7 0 + 256 * h.data.getD 8 0 + 65536 * h.data.getD 9 0 +
    16777216 * h.data.getD 10 0

/-- `vorbis::IdHeader::try_parse`: `None` when too short or the magic is
absent; an error when the version is not 0.  The source then folds its
channel-count, sample-rate and framing checks into a flag initialised to
`false` with `&=`, so the flag stays `false` and those checks never
reject; the model reproduces that by accepting here. -/
def tryParseVorbisId (data : Bytes) : Except ZError (Option VorbisIdHeader) :=
  if data.length < 30 then .ok none
  else if data.take 7 = vorbisIdMagic then
    if (⟨data⟩ : VorbisIdHeader).version ≠ 0 then .error .unsupportedCodecVersion
    else .ok (some ⟨data⟩)
  else .ok none

/-! ## Volume rewriting (src/volume_rewrite.rs) -/

/-- `VolumeTarget`. -/
inductive VolumeTarget
  | zeroGain
  | lufs (target : Decibels)
  | noChange

/-- `OutputGainMode`. -/
inductive OutputGainMode
  | album
  | track

/-- `VolumeRewriterConfig`. -/
structure VolumeRewriterConfig where
  outputGain : VolumeTarget
  outputGainMode : OutputGainMode
  trackVolume : Option Decibels
  albumVolume : Option Decibels

/-- `VolumeRewriterConfig::volume_for_output_gain_calculation`. -/
def volumeForOutputGainCalculation (c : VolumeRewriterConfig) : Option Decibels :=
  match c.outputGainMode with
  | .album => c.albumVolume
  | .track => c.trackVolume

/-- `R128_LUFS`: the EBU R 128 reference level, −23 LUFS. -/
def R128_LUFS : Decibels := -23

/-- The UTF-8 bytes of `TAG_TRACK_GAIN`. -/
def TAG_TRACK_GAIN : Bytes := ("R128_TRACK_GAIN".toList).map Char.toNat

/-- The UTF-8 bytes of `TAG_ALBUM_GAIN`. -/
def TAG_ALBUM_GAIN : Bytes := ("R128_ALBUM_GAIN".toList).map Char.toNat

/-- `format!` on an `i16`: optional minus sign followed by the decimal
digits, as UTF-8 bytes. -/
def intDecimalBytes (n : Int) : Bytes :=
  if n < 0 then 45 :: (Nat.toDigits 10 (-n).toNat).map Char.toNat
  else (Nat.toDigits 10 n.toNat).map Char.toNat

/-- `CommentList::remove_all` on a comment header (delegates to the
discrete list). -/
def CommentHeaderGeneric.removeAll {S : Type} (h : CommentHeaderGeneric S)
    (key : Bytes) : CommentHeaderGeneric S :=
  { h with userComments := removeAllComment h.userComments key }

/-- `CommentList::replace` on a comment header. -/
def CommentHeaderGeneric.replace {S : Type} (h : CommentHeaderGeneric S)
    (key value : Bytes) : Except ZError (CommentHeaderGeneric S) :=
  (replaceComment h.userComments key value).map
    (fun l => { h with userComments := l })

/-- `CommentList::set_tag_to_gain`: `replace` the tag with the decimal
text of the gain's raw Q7.8 word. -/
def CommentHeaderGeneric.setTagToGain {S : Type} (h : CommentHeaderGeneric S)
    (tag : Bytes) (g : FixedPointGain) : Except ZError (CommentHeaderGeneric S) :=
  h.replace tag (intDecimalBytes g.value)

/-- `CodecHeaders`: the identification/comment header pair of the active
codec. -/
inductive CodecHeaders
  | opus (id : OpusIdHeader) (comment : CommentHeaderGeneric OpusSpecifics)
  | vorbis (id : VorbisIdHeader) (comment : CommentHeaderGeneric VorbisSpecifics)
deriving DecidableEq

/-- `VolumeHeaderRewrite::rewrite`: compute the new output gain from the
configured target, write it into the identification header, then replace
or remove the two R128 tags according to the available measurements.
`panicMissingVolume` models the `expect` on a missing pre-computed
volume. -/
def volumeHeaderRewrite (config : VolumeRewriterConfig) (headers : CodecHeaders) :
    Except ZError CodecHeaders :=
  match headers with
  | .opus idh ch => do
    let newGain ← (match config.outputGain with
      | .zeroGain => .ok (⟨0⟩ : FixedPointGain)
      | .lufs target =>
        match volumeForOutputGainCalculation config with
        | some vol => FixedPointGain.tryFromDecibels (target - vol)
        | none => .error .panicMissingVolume
      | .noChange => .ok idh.getOutputGain)
    let idh2 := idh.setOutputGain newGain
    let trackGain ← (match config.trackVolume with
      | some vol =>
        (FixedPointGain.tryFromDecibels (R128_LUFS - vol - newGain.asDecibels)).map some
      | none => .ok none)
    let albumGain ← (match config.albumVolume with
      | some vol =>
        (FixedPointGain.tryFromDecibels (R128_LUFS - vol - newGain.asDecibels)).map some
      | none => .ok none)
    let ch2 ← (match trackGain with
      | some g => ch.setTagToGain TAG_TRACK_GAIN g
      | none => .ok (ch.removeAll TAG_TRACK_GAIN))
    let ch3 ← (match albumGain with
      | some g => ch2.setTagToGain TAG_ALBUM_GAIN g
      | none => .ok (ch2.removeAll TAG_ALBUM_GAIN))
    .ok (.opus idh2 ch3)
  | .vorbis _ _ => .error .unsupportedCodec

theorem tryFromDecibels_ok (d : Decibels) (g : FixedPointGain)
    (h : FixedPointGain.tryFromDecibels d = .ok g) :
    g.value = roundHalfAway (d * 256) ∧ i16min ≤ g.value ∧ g.value ≤ i16max := by
  unfold FixedPointGain.tryFromDecibels at h
  split_ifs at h with he
  injection h with h2
  rw [← h2]
  refine ⟨he, le_max_left _ _, ?_⟩
  exact max_le (by norm_num [i16min, i16max]) (min_le_left _ _)

theorem tryFromDecibels_error (d : Decibels) (e : ZError)
    (h : FixedPointGain.tryFromDecibels d = .error e) : e = .gainOutOfBounds := by
  unfold FixedPointGain.tryFromDecibels at h
  split_ifs at h
  injection h with h2
  exact h2.symm

theorem leBytesToI16_roundtrip (v : Int) (hlo : i16min ≤ v) (hhi : v ≤ i16max) :
    leBytesToI16 (i16loByte v) (i16hiByte v) = v := by
  unfold leBytesToI16 i16loByte i16hiByte
  have hmod : v % 65536 = if 0 ≤ v then v else v + 65536 := by
    simp only [i16min, i16max] at hlo hhi
    split_ifs with hs
    · rw [Int.emod_eq_of_lt hs (by omega)]
    · omega
  split_ifs at hmod with hs
  · rw [hmod]
    have ht : v.toNat < 32768 := by
      simp only [i16max] at hhi
      omega
    rw [if_pos (by omega)]
    omega
  · rw [hmod]
    have ht : 32768 ≤ (v + 65536).toNat := by
      simp only [i16min] at hlo
      omega
    rw [if_neg (by omega)]
    omega

theorem getOutputGain_setOutputGain (idh : OpusIdHeader) (g : FixedPointGain)
    (hlen : 19 ≤ idh.data.length) (hlo : i16min ≤ g.value) (hhi : g.value ≤ i16max) :
    (idh.setOutputGain g).getOutputGain = g := by
  unfold OpusIdHeader.getOutputGain OpusIdHeader.setOutputGain
  have h16 : ((idh.data.set 16 (i16loByte g.value)).set 17
      (i16hiByte g.value)).getD 16 0 = i16loByte g.value := by
    rw [List.getD_eq_getElem?_getD, List.getElem?_set_ne (by omega),
      List.getElem?_set_eq_of_lt _ (by omega)]
    rfl
  have h17 : ((idh.data.set 16 (i16loByte g.value)).set 17
      (i16hiByte g.value)).getD 17 0 = i16hiByte g.value := by
    rw [List.getD_eq_getElem?_getD, List.getElem?_set_eq_of_lt _ (by simp; omega)]
    rfl
  simp only [h16, h17]
  rw [leBytesToI16_roundtrip g.value hlo hhi]

/-- **C3.** After a successful volume rewrite of an Opus header pair with
target `LUFS(target)` whose configured source volume (track volume in
track mode, album volume in album mode) is `v`, the identification
header's output gain is the Q7.8 rounding of `target − v`; for each of the
track and album tags, a present source volume makes the rewrite `replace`
the tag with the decimal Q7.8 text of the rounding of
`−23 dB − volume − new_gain_dB` (`set_tag_to_gain`), while an absent one
makes it `remove_all` the tag; and a gain conversion can only fail with
`GainOutOfBounds`. -/
theorem volume_rewrite_spec (cfg : VolumeRewriterConfig) (target v : Decibels)
    (data : Bytes) (idh idh2 : OpusIdHeader)
    (ch ch2 : CommentHeaderGeneric OpusSpecifics)
    (htarget : cfg.outputGain = .lufs target)
    (hvol : volumeForOutputGainCalculation cfg = some v)
    (hparse : tryParseOpusId data = .ok (some idh))
    (hrw : volumeHeaderRewrite cfg (.opus idh ch) = .ok (.opus idh2 ch2)) :
    (∃ g : FixedPointGain,
      FixedPointGain.tryFromDecibels (target - v) = .ok g ∧
      g.value = roundHalfAway ((target - v) * 256) ∧
      idh2 = idh.setOutputGain g ∧
      idh2.getOutputGain = g ∧
      ∃ chMid,
        (match cfg.trackVolume with
         | some t => ∃ gt,
             FixedPointGain.tryFromDecibels (R128_LUFS - t - g.asDecibels) = .ok gt ∧
             gt.value = roundHalfAway ((R128_LUFS - t - g.asDecibels) * 256) ∧
             ch.setTagToGain TAG_TRACK_GAIN gt = .ok chMid
         | none => chMid = ch.removeAll TAG_TRACK_GAIN) ∧
        (match cfg.albumVolume with
         | some a => ∃ ga,
             FixedPointGain.tryFromDecibels (R128_LUFS - a - g.asDecibels) = .ok ga ∧
             ga.value = roundHalfAway ((R128_LUFS - a - g.asDecibels) * 256) ∧
             chMid.setTagToGain TAG_ALBUM_GAIN ga = .ok ch2
         | none => ch2 = chMid.removeAll TAG_ALBUM_GAIN)) ∧
    (∀ d e, FixedPointGain.tryFromDecibels d = .error e → e = .gainOutOfBounds) := by
  refine ⟨?_, tryFromDecibels_error⟩
  unfold volumeHeaderRewrite at hrw
  rw [htarget, hvol] at hrw
  dsimp only at hrw
  rcases hg : FixedPointGain.tryFromDecibels (target - v) with e | g <;> rw [hg] at hrw
  · simp only [bind, Except.bind] at hrw
    cases hrw
  obtain ⟨hgval, hglo, hghi⟩ := tryFromDecibels_ok (target - v) g hg
  obtain ⟨hdata, hlen⟩ := tryParseOpusId_ok data idh hparse
  have hlen2 : 19 ≤ idh.data.length := by rw [hdata]; exact hlen
  refine ⟨g, rfl, hgval, ?_⟩
  rcases htv : cfg.trackVolume with _ | t <;> rw [htv] at hrw <;>
    rcases hav : cfg.albumVolume with _ | a <;> rw [hav] at hrw <;>
    simp only [bind, Except.bind, Except.map] at hrw
  · injection hrw with hrw2
    injection hrw2 with hid hcm
    refine ⟨hid.symm, ?_, ch.removeAll TAG_TRACK_GAIN, ?_, ?_⟩
    · rw [← hid]
      exact getOutputGain_setOutputGain idh g hlen2 hglo hghi
    · simp only [htv]
    · simp only [hav]
      exact hcm.symm
  · rcases haf : FixedPointGain.tryFromDecibels (R128_LUFS - a - g.asDecibels)
      with e | ga <;> rw [haf] at hrw <;>
      simp only [bind, Except.bind, Except.map] at hrw
    · cases hrw
    rcases hseta : (ch.removeAll TAG_TRACK_GAIN).setTagToGain TAG_ALBUM_GAIN ga
      with e | ch3 <;> rw [hseta] at hrw <;>
      simp only [bind, Except.bind] at hrw
    · cases hrw
    injection hrw with hrw2
    injection hrw2 with hid hcm
    refine ⟨hid.symm, ?_, ch.removeAll TAG_TRACK_GAIN, ?_, ?_⟩
    · rw [← hid]
      exact getOutputGain_setOutputGain idh g hlen2 hglo hghi
    · simp only [htv]
    · simp only [hav]
      exact ⟨ga, haf, (tryFromDecibels_ok _ _ haf).1, by rw [hseta, hcm]⟩
  · rcases htf : FixedPointGain.tryFromDecibels (R128_LUFS - t - g.asDecibels)
      with e | gt <;> rw [htf] at hrw <;>
      simp only [bind, Except.bind, Except.map] at hrw
    · cases hrw
    rcases hsett : ch.setTagToGain TAG_TRACK_GAIN gt with e | chMid <;>
      rw [hsett] at hrw <;> simp only [bind, Except.bind] at hrw
    · cases hrw
    injection hrw with hrw2
    injection hrw2 with hid hcm
    refine ⟨hid.symm, ?_, chMid, ?_, ?_⟩
    · rw [← hid]
      exact getOutputGain_setOutputGain idh g hlen2 hglo hghi
    · simp only [htv]
      exact ⟨gt, htf, (tryFromDecibels_ok _ _ htf).1, hsett⟩
    · simp only [hav]
      exact hcm.symm
  · rcases htf : FixedPointGain.tryFromDecibels (R128_LUFS - t - g.asDecibels)
      with e | gt <;> rw [htf] at hrw <;>
      simp only [bind, Except.bind, Except.map] at hrw
    · cases hrw
    rcases haf : FixedPointGain.tryFromDecibels (R128_LUFS - a - g.asDecibels)
      with e | ga <;> rw [haf] at hrw <;>
      simp only [bind, Except.bind, Except.map] at hrw
    · cases hrw
    rcases hsett : ch.setTagToGain TAG_TRACK_GAIN gt with e | chMid <;>
      rw [hsett] at hrw <;> simp only [bind, Except.bind] at hrw
    · cases hrw
    rcases hseta : chMid.setTagToGain TAG_ALBUM_GAIN ga with e | ch3 <;>
      rw [hseta] at hrw <;> simp only [bind, Except.bind] at hrw
    · cases hrw
    injection hrw with hrw2
    injection hrw2 with hid hcm
    refine ⟨hid.symm, ?_, chMid, ?_, ?_⟩
    · rw [← hid]
      exact getOutputGain_setOutputGain idh g hlen2 hglo hghi
    · simp only [htv]
      exact ⟨gt, htf, (tryFromDecibels_ok _ _ htf).1, hsett⟩
    · simp only [hav]
      exact ⟨ga, haf, (tryFromDecibels_ok _ _ haf).1, by rw [hseta, hcm]⟩

/-- Witness for `volume_rewrite_spec`: a track-mode rewrite to −23 LUFS of
a file measured at −30 LUFS (scenario from the spec: gain becomes 1792 =
7 dB in Q7.8 and the track tag becomes `0`). -/
theorem tryFromDecibels_concrete (d : Decibels) (n : Int)
    (hd : d * 256 = (n : Rat)) (hlo : i16min ≤ n) (hhi : n ≤ i16max) :
    FixedPointGain.tryFromDecibels d = .ok ⟨n⟩ := by
  unfold FixedPointGain.tryFromDecibels
  rw [hd, roundHalfAway_intCast, min_eq_right hhi, max_eq_right hlo, if_pos rfl]

theorem volume_rewrite_spec_witness :
    ∃ g : FixedPointGain,
      FixedPointGain.tryFromDecibels ((-23 : Decibels) - (-30 : Decibels)) = .ok g ∧
      g.value = roundHalfAway (((-23 : Decibels) - (-30 : Decibels)) * 256) := by
  have e1 : FixedPointGain.tryFromDecibels ((-23 : Decibels) - (-30 : Decibels)) =
      .ok ⟨1792⟩ :=
    tryFromDecibels_concrete _ 1792 (by norm_num) (by decide) (by decide)
  have e2 : FixedPointGain.tryFromDecibels
      (R128_LUFS - (-30 : Decibels) - FixedPointGain.asDecibels ⟨1792⟩) = .ok ⟨0⟩ :=
    tryFromDecibels_concrete _ 0
      (by norm_num [R128_LUFS, FixedPointGain.asDecibels]) (by decide) (by decide)
  have hrw : volumeHeaderRewrite ⟨.lufs (-23), .track, some (-30), none⟩
      (.opus ⟨[79, 112, 117, 115, 72, 101, 97, 100, 1, 1, 0, 0, 0, 0, 0, 0, 0, 0, 0]⟩
        ⟨[], [], ⟨[]⟩⟩) =
      .ok (.opus
        ⟨[79, 112, 117, 115, 72, 101, 97, 100, 1, 1, 0, 0, 0, 0, 0, 0, 0, 7, 0]⟩
        ⟨[], [(TAG_TRACK_GAIN, [48])], ⟨[]⟩⟩) := by
    unfold volumeHeaderRewrite
    dsimp only
    rw [show volumeForOutputGainCalculation ⟨.lufs (-23), .track, some (-30), none⟩ =
      some (-30) from rfl]
    dsimp only
    rw [e1]
    simp only [bind, Except.bind, Except.map]
    rw [e2]
    simp only [bind, Except.bind, Except.map]
    rw [show (CommentHeaderGeneric.setTagToGain ⟨[], [], ⟨[]⟩⟩ TAG_TRACK_GAIN ⟨0⟩ :
        Except ZError (CommentHeaderGeneric OpusSpecifics)) =
      .ok ⟨[], [(TAG_TRACK_GAIN, [48])], ⟨[]⟩⟩ from by decide]
    simp only [bind, Except.bind]
    rw [show (CommentHeaderGeneric.removeAll
        (⟨[], [(TAG_TRACK_GAIN, [48])], ⟨[]⟩⟩ : CommentHeaderGeneric OpusSpecifics)
        TAG_ALBUM_GAIN) = ⟨[], [(TAG_TRACK_GAIN, [48])], ⟨[]⟩⟩ from by decide]
    rw [show (OpusIdHeader.setOutputGain
        ⟨[79, 112, 117, 115, 72, 101, 97, 100, 1, 1, 0, 0, 0, 0, 0, 0, 0, 0, 0]⟩
        ⟨1792⟩) =
      ⟨[79, 112, 117, 115, 72, 101, 97, 100, 1, 1, 0, 0, 0, 0, 0, 0, 0, 7, 0]⟩ from by
        decide]
  have h := (volume_rewrite_spec
    ⟨.lufs (-23), .track, some (-30), none⟩ (-23) (-30)
    [79, 112, 117, 115, 72, 101, 97, 100, 1, 1, 0, 0, 0, 0, 0, 0, 0, 0, 0]
    ⟨[79, 112, 117, 115, 72, 101, 97, 100, 1, 1, 0, 0, 0, 0, 0, 0, 0, 0, 0]⟩
    ⟨[79, 112, 117, 115, 72, 101, 97, 100, 1, 1, 0, 0, 0, 0, 0, 0, 0, 7, 0]⟩
    ⟨[], [], ⟨[]⟩⟩
    ⟨[], [(TAG_TRACK_GAIN, [48])], ⟨[]⟩⟩
    rfl rfl rfl hrw).1
  exact ⟨h.choose, h.choose_spec.1, h.choose_spec.2.1⟩

/-! ## Header rewrite driver (src/header_rewriter.rs) -/

/-- `ogg::PacketWriteEndInfo`. -/
inductive PacketWriteEndInfo
  | normalPacket
  | endPage
  | endStream
deriving DecidableEq

/-- The fields of an `ogg::Packet` that the rewriter reads. -/
structure Packet where
  data : Bytes
  serial : Nat
  granule : Nat
  lastInPage : Bool
  lastInStream : Bool
deriving DecidableEq

/-- `HeaderRewriter::packet_write_end_info`. -/
def packetWriteEndInfo (p : Packet) : PacketWriteEndInfo :=
  if p.lastInStream then .endStream
  else if p.lastInPage then .endPage
  else .normalPacket

/-- The rewriter's `State` enumeration. -/
inductive RewState
  | awaitingHeader
  | awaitingComments (serial : Nat)
  | forwarding
deriving DecidableEq

/-- The mutable state of a `HeaderRewriter`: the saved first packet, the
state machine, the packet queue, and — standing in for the wrapped
`PacketWriter` — the arguments of every `write_packet` call so far. -/
structure RewriterState where
  headerPacket : Option Packet
  state : RewState
  packetQueue : List Packet
  written : List (Bytes × Nat × PacketWriteEndInfo × Nat)
deriving DecidableEq

/-- `HeaderRewriter::new`. -/
def initialRewriterState : RewriterState := ⟨none, .awaitingHeader, [], []⟩

/-- The queue-draining `while` loop at the end of `submit`: each queued
packet is passed to `write_packet`. -/
def flushQueue (st : RewriterState) : RewriterState :=
  { st with
    packetQueue := [],
    written := st.written ++
      st.packetQueue.map (fun p => (p.data, p.serial, packetWriteEndInfo p, p.granule)) }

/-- `HeaderRewriter::parse_codec_headers`: try Opus first, then Vorbis. -/
def parseCodecHeaders (identification comment : Bytes) : Except ZError CodecHeaders := do
  match ← tryParseOpusId identification with
  | some oh => do
    let c ← opusTryParseComment comment
    return .opus oh c
  | none =>
    match ← tryParseVorbisId identification with
    | some vh => do
      let c ← vorbisTryParseComment comment
      return .vorbis vh c
    | none => .error .unknownCodec

/-- `CodecHeaders::serialize_id_header` (id headers serialize to their
stored bytes). -/
def serializeIdHeaderBytes (h : CodecHeaders) : Bytes :=
  match h with
  | .opus i _ => i.data
  | .vorbis i _ => i.data

/-- `CodecHeaders::serialize_comment_header`. -/
def serializeCommentHeaderBytes (h : CodecHeaders) : Except ZError Bytes :=
  match h with
  | .opus _ c => commentIntoVec c
  | .vorbis _ c => commentIntoVec c

/-- `SubmitResult`. -/
inductive SubmitResult (S : Type)
  | good
  | headersUnchanged (summary : S)
  | headersChanged (before after : S)
deriving DecidableEq

/-- `HeaderRewriter::submit`, parameterized — like the Rust struct — by
the error lift (`HR::Error: From<Error>`), the rewrite strategy and the
summarize strategy.  On the comment packet of the matching stream the
headers are parsed, summarized, rewritten, summarized again, compared
structurally with the parsed originals, re-serialized into the two
packets, and the queue keeps both; the result reports whether the bundle
changed.  Other packets are queued and the queue is drained to the
writer. -/
def submit {S E : Type} (liftErr : ZError → E)
    (rewriteFn : CodecHeaders → Except E CodecHeaders)
    (summarizeFn : CodecHeaders → Except E S)
    (st : RewriterState) (packet : Packet) :
    Except E (SubmitResult S × RewriterState) :=
  match st.state with
  | .awaitingHeader =>
    let st2 := { st with
      headerPacket := some packet,
      state := .awaitingComments packet.serial }
    .ok (.good, flushQueue st2)
  | .awaitingComments serial =>
    if serial = packet.serial then
      match st.headerPacket with
      | none => .error (liftErr .panicMissingHeaderPacket)
      | some idPacket => do
        let originalHeaders ← (parseCodecHeaders idPacket.data packet.data).mapError liftErr
        let summaryBefore ← summarizeFn originalHeaders
        let headers ← rewriteFn originalHeaders
        let summaryAfter ← summarizeFn headers
        let idData := serializeIdHeaderBytes headers
        let commentData ← (serializeCommentHeaderBytes headers).mapError liftErr
        let st2 := { st with
          headerPacket := none,
          state := .forwarding,
          packetQueue := st.packetQueue ++
            [{ idPacket with data := idData }, { packet with data := commentData }] }
        .ok (if headers = originalHeaders then .headersUnchanged summaryBefore
          else .headersChanged summaryBefore summaryAfter, st2)
    else
      let st2 := { st with packetQueue := st.packetQueue ++ [packet] }
      .ok (.good, flushQueue st2)
  | .forwarding =>
    let st2 := { st with packetQueue := st.packetQueue ++ [packet] }
    .ok (.good, flushQueue st2)

/-- **C1.** Submitting the stream's first packet then its comment packet
(same serial): the first returns `Good`; the second — when parsing, both
summarize calls, the rewrite and the re-serialization succeed — returns
`HeadersChanged` with the summary taken before the rewrite and the one
taken after it exactly when the rewritten bundle differs structurally from
the parsed original, and `HeadersUnchanged` with the before-summary
otherwise. -/
theorem submit_two_header_packets {S E : Type} (liftErr : ZError → E)
    (rewriteFn : CodecHeaders → Except E CodecHeaders)
    (summarizeFn : CodecHeaders → Except E S)
    (pkt1 pkt2 : Packet) (origHeaders newHeaders : CodecHeaders)
    (before after : S) (commentData : Bytes)
    (hser : pkt1.serial = pkt2.serial)
    (hparse : parseCodecHeaders pkt1.data pkt2.data = .ok origHeaders)
    (hbefore : summarizeFn origHeaders = .ok before)
    (hrewrite : rewriteFn origHeaders = .ok newHeaders)
    (hafter : summarizeFn newHeaders = .ok after)
    (hcser : serializeCommentHeaderBytes newHeaders = .ok commentData) :
    ∃ st1,
      submit liftErr rewriteFn summarizeFn initialRewriterState pkt1 =
        .ok (.good, st1) ∧
      submit liftErr rewriteFn summarizeFn st1 pkt2 =
        .ok (if newHeaders = origHeaders then .headersUnchanged before
            else .headersChanged before after,
          { headerPacket := none,
            state := .forwarding,
            packetQueue := [{ pkt1 with data := serializeIdHeaderBytes newHeaders },
              { pkt2 with data := commentData }],
            written := [] }) := by
  refine ⟨⟨some pkt1, .awaitingComments pkt1.serial, [], []⟩, rfl, ?_⟩
  unfold submit
  dsimp only
  rw [if_pos hser]
  rw [hparse]
  simp only [Except.mapError, bind, Except.bind, hbefore, hrewrite, hafter]
  rw [hcser]
  simp only [Except.mapError, bind, Except.bind]
  rfl

/-- Witness for `submit_two_header_packets`: an identity rewrite of a
minimal Opus stream reports `HeadersUnchanged`. -/
theorem submit_two_header_packets_witness :
    ∃ st1,
      submit (S := Nat) (E := ZError) id (fun h => .ok h) (fun _ => .ok 0)
        initialRewriterState
        ⟨[79, 112, 117, 115, 72, 101, 97, 100, 1, 1, 0, 0, 0, 0, 0, 0, 0, 0, 0],
          7, 0, false, false⟩ = .ok (.good, st1) ∧
      submit id (fun h => .ok h) (fun _ => .ok 0) st1
        ⟨[79, 112, 117, 115, 84, 97, 103, 115, 0, 0, 0, 0, 0, 0, 0, 0],
          7, 0, false, false⟩ =
        .ok (if (CodecHeaders.opus
              ⟨[79, 112, 117, 115, 72, 101, 97, 100, 1, 1, 0, 0, 0, 0, 0, 0, 0, 0, 0]⟩
              ⟨[], [], ⟨[]⟩⟩) =
            (CodecHeaders.opus
              ⟨[79, 112, 117, 115, 72, 101, 97, 100, 1, 1, 0, 0, 0, 0, 0, 0, 0, 0, 0]⟩
              ⟨[], [], ⟨[]⟩⟩) then .headersUnchanged 0
          else .headersChanged 0 0,
          { headerPacket := none,
            state := .forwarding,
            packetQueue :=
              [{ (⟨[79, 112, 117, 115, 72, 101, 97, 100, 1, 1, 0, 0, 0, 0, 0, 0, 0, 0,
                  0], 7, 0, false, false⟩ : Packet) with
                  data := serializeIdHeaderBytes (CodecHeaders.opus
                    ⟨[79, 112, 117, 115, 72, 101, 97, 100, 1, 1, 0, 0, 0, 0, 0, 0, 0,
                      0, 0]⟩ ⟨[], [], ⟨[]⟩⟩) },
                { (⟨[79, 112, 117, 115, 84, 97, 103, 115, 0, 0, 0, 0, 0, 0, 0, 0],
                  7, 0, false, false⟩ : Packet) with
                  data := [79, 112, 117, 115, 84, 97, 103, 115, 0, 0, 0, 0, 0, 0, 0, 0] }],
            written := [] }) :=
  submit_two_header_packets id (fun h => .ok h) (fun _ => .ok 0)
    ⟨[79, 112, 117, 115, 72, 101, 97, 100, 1, 1, 0, 0, 0, 0, 0, 0, 0, 0, 0],
      7, 0, false, false⟩
    ⟨[79, 112, 117, 115, 84, 97, 103, 115, 0, 0, 0, 0, 0, 0, 0, 0], 7, 0, false, false⟩
    (CodecHeaders.opus
      ⟨[79, 112, 117, 115, 72, 101, 97, 100, 1, 1, 0, 0, 0, 0, 0, 0, 0, 0, 0]⟩
      ⟨[], [], ⟨[]⟩⟩)
    (CodecHeaders.opus
      ⟨[79, 112, 117, 115, 72, 101, 97, 100, 1, 1, 0, 0, 0, 0, 0, 0, 0, 0, 0]⟩
      ⟨[], [], ⟨[]⟩⟩)
    0 0 [79, 112, 117, 115, 84, 97, 103, 115, 0, 0, 0, 0, 0, 0, 0, 0]
    rfl (by decide) rfl rfl rfl (by decide)

end Zoog
